import Mathlib

/-!
Shallow embedding of the Minesweeper knowledge-based agent
(`minesweeper.py`): the `Sentence` knowledge representation, the
`MinesweeperAI` knowledge base with its `mark_mine` / `mark_safe`
propagation, the `add_knowledge` observation routine with its
deductive-closure loop, and `make_safe_move`.

Cells are pairs of integers.  Python sets become `Finset`, the knowledge
list stays a `List`.  The in-place mutation of sentences becomes explicit
state passing: each AI operation returns the updated state.  The
`while True` closure loop is modelled by `AI.closureStep` (one round,
`none` when the loop would `break`) iterated by `AI.closureFuel`; the
fuel chosen in `AI.add_knowledge` is the number of distinct cells
mentioned by sentences, which is proved sufficient
(`closure_fuel_sufficient`): every round that does not break strictly
shrinks that set, so the fuelled iteration coincides with the
unbounded loop.
-/

namespace Mines

abbrev Cell := Int × Int

/-- A logical statement: exactly `count` of the cells in `cells` are mines.
Equality is structural, as in the Python `__eq__`. -/
structure Sentence where
  cells : Finset Cell
  count : Int
deriving DecidableEq

/-- `Sentence.known_mines`: if the number of cells equals the count and the
count is nonzero, every cell is certainly a mine. -/
def Sentence.known_mines (s : Sentence) : Finset Cell :=
  if (s.cells.card : Int) = s.count ∧ s.count ≠ 0 then s.cells else ∅

/-- `Sentence.known_safes`: if the count is zero, every cell is certainly safe. -/
def Sentence.known_safes (s : Sentence) : Finset Cell :=
  if s.count = 0 then s.cells else ∅

/-- `Sentence.mark_mine`: if the cell is in the sentence, remove it and
decrement the count; otherwise do nothing. -/
def Sentence.mark_mine (s : Sentence) (c : Cell) : Sentence :=
  if c ∈ s.cells then { cells := s.cells.erase c, count := s.count - 1 } else s

/-- `Sentence.mark_safe`: if the cell is in the sentence, remove it, count
unchanged; otherwise do nothing. -/
def Sentence.mark_safe (s : Sentence) (c : Cell) : Sentence :=
  if c ∈ s.cells then { cells := s.cells.erase c, count := s.count } else s

/-- State of `MinesweeperAI`. -/
structure AI where
  height : Int
  width : Int
  moves_made : Finset Cell
  mines : Finset Cell
  safes : Finset Cell
  knowledge : List Sentence
deriving DecidableEq

/-- Fresh `MinesweeperAI(height, width)`. -/
def AI.start (h w : Int) : AI :=
  { height := h, width := w, moves_made := ∅, mines := ∅, safes := ∅, knowledge := [] }

/-- `MinesweeperAI.mark_mine`: add the cell to `mines` and propagate to every sentence. -/
def AI.mark_mine (st : AI) (c : Cell) : AI :=
  { st with mines := insert c st.mines,
            knowledge := st.knowledge.map (fun s => s.mark_mine c) }

/-- `MinesweeperAI.mark_safe`: add the cell to `safes` and propagate to every sentence. -/
def AI.mark_safe (st : AI) (c : Cell) : AI :=
  { st with safes := insert c st.safes,
            knowledge := st.knowledge.map (fun s => s.mark_safe c) }

/-- Row-major order on cells, used to enumerate a Python set in a fixed
order; every result below is independent of the enumeration order. -/
def cellLE (a b : Cell) : Prop :=
  a.1 < b.1 ∨ (a.1 = b.1 ∧ a.2 ≤ b.2)

instance : DecidableRel cellLE := fun a b =>
  inferInstanceAs (Decidable (a.1 < b.1 ∨ (a.1 = b.1 ∧ a.2 ≤ b.2)))

instance : IsTrans Cell cellLE := by
  constructor; intro a b c hab hbc; unfold cellLE at *; omega

instance : IsAntisymm Cell cellLE := by
  constructor; intro a b hab hba
  unfold cellLE at *
  have h1 : a.1 = b.1 ∧ a.2 = b.2 := by omega
  calc a = (a.1, a.2) := rfl
    _ = (b.1, b.2) := by rw [h1.1, h1.2]
    _ = b := rfl

instance : IsTotal Cell cellLE := by
  constructor; intro a b; unfold cellLE; omega

/-- Sort a multiset of cells into a list; insertion sort is used because it
reduces inside the kernel. -/
def msort (m : Multiset Cell) : List Cell :=
  Quotient.liftOn m (fun l => l.insertionSort cellLE)
    (fun a b h => List.eq_of_perm_of_sorted
      (((List.perm_insertionSort cellLE a).trans h).trans
        (List.perm_insertionSort cellLE b).symm)
      (List.sorted_insertionSort cellLE a) (List.sorted_insertionSort cellLE b))

/-- Deterministic enumeration of a finite set of cells. -/
def cells_list (s : Finset Cell) : List Cell :=
  msort s.val

/-- The 3-by-3 block scanned by the two nested `range(cell[0]-1, cell[0]+2)`
loops: it contains the centre cell itself and ignores board bounds. -/
def box (c : Cell) : List Cell :=
  [c.1 - 1, c.1, c.1 + 1].flatMap (fun i => [c.2 - 1, c.2, c.2 + 1].map (fun j => (i, j)))

/-- The bounds test `0 <= i < height and 0 <= j < width`. -/
def AI.inBounds (st : AI) (q : Cell) : Prop :=
  0 ≤ q.1 ∧ q.1 < st.height ∧ 0 ≤ q.2 ∧ q.2 < st.width

instance (st : AI) (q : Cell) : Decidable (st.inBounds q) :=
  inferInstanceAs (Decidable (0 ≤ q.1 ∧ q.1 < st.height ∧ 0 ≤ q.2 ∧ q.2 < st.width))

/-- The state after the first two steps of `add_knowledge`: record the move
and mark the observed cell safe. -/
def AI.preState (st : AI) (cell : Cell) : AI :=
  ({ st with moves_made := insert cell st.moves_made }).mark_safe cell

/-- The sentence built in step 3 of `add_knowledge`: `unexplored_neighbours`
are the in-bounds cells of the 3-by-3 block that are neither in `safes` nor in
`mines` (the centre is excluded because it was just marked safe), and
`mine_count` tallies every cell of the block already in `mines` — including
the centre, since the Python loop has no `continue` before that test. -/
def AI.newSentence (st : AI) (cell : Cell) (count : Int) : Sentence :=
  let p := st.preState cell
  let mine_count := ((box cell).toFinset.filter (fun q => q ∈ p.mines)).card
  let U := (box cell).toFinset.filter (fun q => p.inBounds q ∧ q ∉ p.safes ∧ q ∉ p.mines)
  { cells := U, count := count - mine_count }

/-- Union of `known_safes` over the knowledge list (`new_safes` in the loop). -/
def scanSafes (kn : List Sentence) : Finset Cell :=
  kn.foldr (fun s acc => s.known_safes ∪ acc) ∅

/-- Union of `known_mines` over the knowledge list (`new_mines` in the loop). -/
def scanMines (kn : List Sentence) : Finset Cell :=
  kn.foldr (fun s acc => s.known_mines ∪ acc) ∅

/-- `for safe in new_safes: self.mark_safe(safe)` — the order of set
iteration is irrelevant since the per-cell operations commute. -/
def AI.markSafeAll (st : AI) (l : List Cell) : AI :=
  l.foldl AI.mark_safe st

/-- `for mine in new_mines: self.mark_mine(mine)`. -/
def AI.markMineAll (st : AI) (l : List Cell) : AI :=
  l.foldl AI.mark_mine st

/-- Step 5 of `add_knowledge`: the `new_knowledge` list collected by the two
nested loops over `self.knowledge`.  A candidate from a structurally distinct
pair with `sentence2.cells ⊆ sentence1.cells` is kept when no structurally
equal sentence is already in `knowledge` (the candidates collected so far in
`new_knowledge` are not consulted, exactly as in the source). -/
def inferNew (kn : List Sentence) : List Sentence :=
  kn.flatMap (fun s1 => kn.filterMap (fun s2 =>
    if s1 ≠ s2 ∧ s2.cells ⊆ s1.cells then
      if Sentence.mk (s1.cells \ s2.cells) (s1.count - s2.count) ∈ kn then none
      else some (Sentence.mk (s1.cells \ s2.cells) (s1.count - s2.count))
    else none))

/-- The effect of one non-breaking round of the `while True` loop: mark all
new safes, then all new mines, then append the inferred sentences. -/
def AI.closureBody (st : AI) : AI :=
  let st1 := (st.markSafeAll (cells_list (scanSafes st.knowledge))).markMineAll
    (cells_list (scanMines st.knowledge))
  { st1 with knowledge := st1.knowledge ++ inferNew st1.knowledge }

/-- One round of the `while True` loop in `add_knowledge`: `none` when both
scans are empty (the `break`), otherwise the round's effect. -/
def AI.closureStep (st : AI) : Option AI :=
  if scanSafes st.knowledge = ∅ ∧ scanMines st.knowledge = ∅ then none
  else some st.closureBody

/-- The closure loop, fuelled.  `AI.add_knowledge` supplies fuel proved
sufficient to reach the break condition (`closure_fuel_sufficient`). -/
def AI.closureFuel : Nat → AI → AI
  | 0, st => st
  | n + 1, st =>
    match st.closureStep with
    | none => st
    | some st1 => AI.closureFuel n st1

/-- All cells mentioned by some sentence of the state; the termination
measure of the closure loop. -/
def Ucells (st : AI) : Finset Cell :=
  st.knowledge.foldr (fun s acc => s.cells ∪ acc) ∅

/-- `MinesweeperAI.add_knowledge`: record the move, mark the cell safe,
append the new sentence, run the deductive closure to exhaustion. -/
def AI.add_knowledge (st : AI) (cell : Cell) (count : Int) : AI :=
  let p := st.preState cell
  let st3 := { p with knowledge := p.knowledge ++ [st.newSentence cell count] }
  st3.closureFuel (Ucells st3).card

/-- `MinesweeperAI.make_safe_move`: the first safe cell not yet played,
`none` when every known safe cell has been played. -/
def AI.make_safe_move (st : AI) : Option Cell :=
  (cells_list st.safes).find? (fun c => decide (c ∉ st.moves_made))

/-- A whole game from a fresh AI: fold `add_knowledge` over a list of
observations `(cell, count)`. -/
def runGame (h w : Int) (calls : List (Cell × Int)) : AI :=
  calls.foldl (fun st p => st.add_knowledge p.1 p.2) (AI.start h w)

/-- The true count reported by `Minesweeper.nearby_mines` for mine set `M`:
mines within the 3-by-3 block, skipping the centre, bounds-checked. -/
def nearby_mines (h w : Int) (M : Finset Cell) (c : Cell) : Nat :=
  ((box c).toFinset.filter
    (fun q => q ≠ c ∧ (0 ≤ q.1 ∧ q.1 < h ∧ 0 ≤ q.2 ∧ q.2 < w) ∧ q ∈ M)).card

/-- Modelled from the spec: the cell set the spec prescribes for the sentence
appended by `observe` — the in-bounds 8-neighborhood of the observed cell,
excluding the observed cell itself and every cell already in `safes` or
`mines` (state taken before the call). -/
def specObservedCells (st : AI) (cell : Cell) : Finset Cell :=
  (box cell).toFinset.filter
    (fun q => q ≠ cell ∧ st.inBounds q ∧ q ∉ st.safes ∧ q ∉ st.mines)

/-- Modelled from the spec: the number of already-known mines adjacent to the
observed cell (the 8 neighbours, excluding the cell itself). -/
def specAdjacentMines (st : AI) (cell : Cell) : Nat :=
  ((box cell).toFinset.filter (fun q => q ≠ cell ∧ q ∈ st.mines)).card

/-- Invariant of claim C3: no sentence mentions a cell already resolved as
mine or safe. -/
def NoResolved (st : AI) : Prop :=
  ∀ s ∈ st.knowledge, ∀ c ∈ s.cells, c ∉ st.mines ∧ c ∉ st.safes

/-- Bounds test as a standalone predicate over board dimensions. -/
def inb (h w : Int) (q : Cell) : Prop :=
  0 ≤ q.1 ∧ q.1 < h ∧ 0 ≤ q.2 ∧ q.2 < w

instance (h w : Int) (q : Cell) : Decidable (inb h w q) :=
  inferInstanceAs (Decidable (0 ≤ q.1 ∧ q.1 < h ∧ 0 ≤ q.2 ∧ q.2 < w))

/-- Soundness invariant with respect to an actual mine set `M`: every
deduced mine is a real mine, no deduced safe cell is a mine, and every
sentence counts exactly its cells that are real mines. -/
def Sound (M : Finset Cell) (st : AI) : Prop :=
  st.mines ⊆ M ∧ (∀ c ∈ st.safes, c ∉ M) ∧
    ∀ s ∈ st.knowledge, ((s.cells ∩ M).card : Int) = s.count

/-- An observation call `(cell, count)` is truthful for mine set `M` when the
observed cell is not a mine and the count is the oracle's true count. -/
def Truthful (h w : Int) (M : Finset Cell) (p : Cell × Int) : Prop :=
  p.1 ∉ M ∧ p.2 = (nearby_mines h w M p.1 : Int)

instance (h w : Int) (M : Finset Cell) (p : Cell × Int) : Decidable (Truthful h w M p) :=
  inferInstanceAs (Decidable (p.1 ∉ M ∧ p.2 = (nearby_mines h w M p.1 : Int)))

/-! ### Basic lemmas about `Sentence` operations -/

theorem Sentence.mark_safe_cells (s : Sentence) (c : Cell) :
    (s.mark_safe c).cells = s.cells.erase c := by
  unfold Sentence.mark_safe
  by_cases h : c ∈ s.cells
  · simp [h]
  · simp [h, Finset.erase_eq_of_not_mem h]

theorem Sentence.mark_safe_count (s : Sentence) (c : Cell) :
    (s.mark_safe c).count = s.count := by
  unfold Sentence.mark_safe
  by_cases h : c ∈ s.cells <;> simp [h]

theorem Sentence.mark_mine_cells (s : Sentence) (c : Cell) :
    (s.mark_mine c).cells = s.cells.erase c := by
  unfold Sentence.mark_mine
  by_cases h : c ∈ s.cells
  · simp [h]
  · simp [h, Finset.erase_eq_of_not_mem h]

theorem Sentence.mark_mine_count (s : Sentence) (c : Cell) :
    (s.mark_mine c).count = if c ∈ s.cells then s.count - 1 else s.count := by
  unfold Sentence.mark_mine
  by_cases h : c ∈ s.cells <;> simp [h]

theorem Sentence.mem_known_safes (s : Sentence) (c : Cell) :
    c ∈ s.known_safes ↔ s.count = 0 ∧ c ∈ s.cells := by
  unfold Sentence.known_safes
  by_cases h : s.count = 0 <;> simp [h]

theorem Sentence.mem_known_mines (s : Sentence) (c : Cell) :
    c ∈ s.known_mines ↔ ((s.cells.card : Int) = s.count ∧ s.count ≠ 0) ∧ c ∈ s.cells := by
  unfold Sentence.known_mines
  by_cases h : (s.cells.card : Int) = s.count ∧ s.count ≠ 0 <;> simp [h]

/-! ### Enumeration of finite cell sets -/

theorem mem_msort (c : Cell) (m : Multiset Cell) : c ∈ msort m ↔ c ∈ m :=
  Quotient.inductionOn m (fun l => by
    show c ∈ l.insertionSort cellLE ↔ c ∈ (l : Multiset Cell)
    rw [Multiset.mem_coe]
    exact (List.perm_insertionSort cellLE l).mem_iff)

theorem mem_cells_list (c : Cell) (s : Finset Cell) : c ∈ cells_list s ↔ c ∈ s := by
  rw [cells_list, mem_msort]; rfl

theorem msort_nodup (m : Multiset Cell) (hm : m.Nodup) : (msort m).Nodup := by
  revert hm
  refine Quotient.inductionOn m (fun l hl => ?_)
  have hl2 : l.Nodup := hl
  exact ((List.perm_insertionSort cellLE l).nodup_iff).2 hl2

theorem cells_list_nodup (s : Finset Cell) : (cells_list s).Nodup :=
  msort_nodup s.val s.nodup

theorem cells_list_toFinset (s : Finset Cell) : (cells_list s).toFinset = s := by
  ext c
  simp [List.mem_toFinset, mem_cells_list]

/-! ### Field computations for the AI operations -/

theorem AI.mark_safe_def (st : AI) (c : Cell) :
    st.mark_safe c = { st with safes := insert c st.safes,
                               knowledge := st.knowledge.map (fun s => s.mark_safe c) } := rfl

theorem AI.mark_mine_def (st : AI) (c : Cell) :
    st.mark_mine c = { st with mines := insert c st.mines,
                               knowledge := st.knowledge.map (fun s => s.mark_mine c) } := rfl

/-! ### C9: the knowledge-base `mark_mine` / `mark_safe` are idempotent -/

theorem Sentence.mark_mine_idem (s : Sentence) (c : Cell) :
    (s.mark_mine c).mark_mine c = s.mark_mine c := by
  by_cases h : c ∈ s.cells
  · unfold Sentence.mark_mine
    simp [h]
  · unfold Sentence.mark_mine
    simp [h]

theorem Sentence.mark_safe_idem (s : Sentence) (c : Cell) :
    (s.mark_safe c).mark_safe c = s.mark_safe c := by
  by_cases h : c ∈ s.cells
  · unfold Sentence.mark_safe
    simp [h]
  · unfold Sentence.mark_safe
    simp [h]

/-- C9: applying `mark_mine` (respectively `mark_safe`) twice to the same
cell leaves the knowledge base — `mines`, `safes`, `moves_made` and every
sentence — exactly as applying it once. -/
theorem mark_mine_safe_idempotent (st : AI) (c : Cell) :
    (st.mark_mine c).mark_mine c = st.mark_mine c ∧
    (st.mark_safe c).mark_safe c = st.mark_safe c := by
  constructor
  · unfold AI.mark_mine
    simp [List.map_map, Function.comp, Sentence.mark_mine_idem]
  · unfold AI.mark_safe
    simp [List.map_map, Function.comp, Sentence.mark_safe_idem]

/-! ### C10: totality and unchecked count arithmetic of `Sentence` marking -/

/-- C10: `Sentence.mark_mine` and `Sentence.mark_safe` are total: a cell not
in the sentence leaves it unchanged; a cell in the sentence is removed, with
`mark_mine` always decrementing the count — even past zero, as the concrete
singleton sentence with count 0 shows — and no operation validates
`0 ≤ count ≤ |cells|`. -/
theorem sentence_mark_total_behavior (s : Sentence) (c : Cell) :
    (c ∉ s.cells → s.mark_mine c = s ∧ s.mark_safe c = s) ∧
    (c ∈ s.cells →
      (s.mark_mine c).cells = s.cells.erase c ∧ (s.mark_mine c).count = s.count - 1 ∧
      (s.mark_safe c).cells = s.cells.erase c ∧ (s.mark_safe c).count = s.count) ∧
    ((Sentence.mk {((0:Int),(0:Int))} 0).mark_mine ((0:Int),(0:Int))).count < 0 := by
  refine ⟨fun h => ?_, fun h => ?_, by decide⟩
  · unfold Sentence.mark_mine Sentence.mark_safe
    simp [h]
  · exact ⟨Sentence.mark_mine_cells s c, by rw [Sentence.mark_mine_count]; simp [h],
      Sentence.mark_safe_cells s c, Sentence.mark_safe_count s c⟩

/-- Witness for C10 at a concrete sentence and cell. -/
theorem sentence_mark_total_behavior_witness :
    ((Sentence.mk {((0:Int),(0:Int)), ((0:Int),(1:Int))} 1).mark_mine ((0:Int),(0:Int))).count
      = 0 ∧
    ((Sentence.mk {((0:Int),(0:Int)), ((0:Int),(1:Int))} 1).mark_safe ((1:Int),(1:Int)))
      = Sentence.mk {((0:Int),(0:Int)), ((0:Int),(1:Int))} 1 := by
  constructor
  · have h := (sentence_mark_total_behavior
      (Sentence.mk {((0:Int),(0:Int)), ((0:Int),(1:Int))} 1) ((0:Int),(0:Int))).2.1
      (by decide)
    rw [h.2.1]
    decide
  · exact ((sentence_mark_total_behavior
      (Sentence.mk {((0:Int),(0:Int)), ((0:Int),(1:Int))} 1) ((1:Int),(1:Int))).1
      (by decide)).2

/-! ### C7: characterization of `known_mines` and `known_safes` -/

/-- C7: `known_mines` returns the full cell set exactly when the number of
cells equals the count and the count is nonzero, and the empty set otherwise;
`known_safes` returns the full cell set exactly when the count is zero, and
the empty set otherwise.  Both are pure functions of the sentence. -/
theorem known_mines_safes_characterization (s : Sentence) :
    (((s.cells.card : Int) = s.count ∧ s.count ≠ 0) → s.known_mines = s.cells) ∧
    (¬((s.cells.card : Int) = s.count ∧ s.count ≠ 0) → s.known_mines = ∅) ∧
    (s.count = 0 → s.known_safes = s.cells) ∧
    (s.count ≠ 0 → s.known_safes = ∅) := by
  unfold Sentence.known_mines Sentence.known_safes
  exact ⟨fun h => if_pos h, fun h => if_neg h, fun h => if_pos h, fun h => if_neg h⟩

/-- Witness for C7 at concrete sentences. -/
theorem known_mines_safes_characterization_witness :
    (Sentence.mk {((1:Int),(1:Int))} 1).known_mines = {((1:Int),(1:Int))} ∧
    (Sentence.mk {((2:Int),(2:Int)), ((2:Int),(3:Int))} 0).known_safes
      = {((2:Int),(2:Int)), ((2:Int),(3:Int))} := by
  constructor
  · exact (known_mines_safes_characterization (Sentence.mk {((1:Int),(1:Int))} 1)).1 (by decide)
  · exact (known_mines_safes_characterization
      (Sentence.mk {((2:Int),(2:Int)), ((2:Int),(3:Int))} 0)).2.2.1 (by decide)

/-! ### C8: `make_safe_move` -/

/-- C8: `make_safe_move` returns a cell of `safes` not yet in `moves_made`
whenever that difference is non-empty, returns `none` exactly when it is
empty, and never returns a played cell; as a pure function of the state it
mutates nothing. -/
theorem make_safe_move_correct (st : AI) :
    (∀ c, st.make_safe_move = some c → c ∈ st.safes ∧ c ∉ st.moves_made) ∧
    (st.make_safe_move = none ↔ st.safes \ st.moves_made = ∅) ∧
    ((st.safes \ st.moves_made).Nonempty →
      ∃ c, st.make_safe_move = some c ∧ c ∈ st.safes \ st.moves_made) := by
  have hsome : ∀ c, st.make_safe_move = some c → c ∈ st.safes ∧ c ∉ st.moves_made := by
    intro c h
    unfold AI.make_safe_move at h
    have hmem := List.mem_of_find?_eq_some h
    have hp := List.find?_some h
    rw [mem_cells_list] at hmem
    exact ⟨hmem, of_decide_eq_true hp⟩
  have hnone : st.make_safe_move = none ↔ st.safes \ st.moves_made = ∅ := by
    unfold AI.make_safe_move
    rw [List.find?_eq_none, Finset.eq_empty_iff_forall_not_mem]
    constructor
    · intro h c hc
      rw [Finset.mem_sdiff] at hc
      have := h c ((mem_cells_list c st.safes).2 hc.1)
      simp at this
      exact hc.2 this
    · intro h c hc
      rw [mem_cells_list] at hc
      simp only [decide_eq_true_eq, not_not]
      by_contra hcontra
      exact h c (Finset.mem_sdiff.2 ⟨hc, hcontra⟩)
  refine ⟨hsome, hnone, fun hne => ?_⟩
  rcases Option.eq_none_or_eq_some st.make_safe_move with h | ⟨c, h⟩
  · rw [hnone] at h
    rw [h] at hne
    exact absurd hne Finset.not_nonempty_empty
  · have := hsome c h
    exact ⟨c, h, Finset.mem_sdiff.2 this⟩

/-- Witness for C8 at a concrete state with a known safe unplayed cell. -/
theorem make_safe_move_correct_witness :
    ∃ c, (AI.mk 2 2 ∅ ∅ {((0:Int),(0:Int))} []).make_safe_move = some c ∧
      c ∈ ({((0:Int),(0:Int))} : Finset Cell) \ (∅ : Finset Cell) :=
  (make_safe_move_correct (AI.mk 2 2 ∅ ∅ {((0:Int),(0:Int))} [])).2.2 (by decide)

/-! ### Membership in the folded unions -/

theorem mem_Ucells (c : Cell) (st : AI) :
    c ∈ Ucells st ↔ ∃ s ∈ st.knowledge, c ∈ s.cells := by
  rw [Ucells]
  induction st.knowledge with
  | nil => simp
  | cons s l ih => simp [List.foldr_cons, ih]

theorem mem_scanSafes (c : Cell) (kn : List Sentence) :
    c ∈ scanSafes kn ↔ ∃ s ∈ kn, c ∈ s.known_safes := by
  rw [scanSafes]
  induction kn with
  | nil => simp
  | cons s l ih => simp [List.foldr_cons, ih]

theorem mem_scanMines (c : Cell) (kn : List Sentence) :
    c ∈ scanMines kn ↔ ∃ s ∈ kn, c ∈ s.known_mines := by
  rw [scanMines]
  induction kn with
  | nil => simp
  | cons s l ih => simp [List.foldr_cons, ih]

theorem scanSafes_subset_Ucells (st : AI) : scanSafes st.knowledge ⊆ Ucells st := by
  intro c hc
  rw [mem_scanSafes] at hc
  obtain ⟨s, hs, hcs⟩ := hc
  rw [Sentence.mem_known_safes] at hcs
  exact (mem_Ucells c st).2 ⟨s, hs, hcs.2⟩

theorem scanMines_subset_Ucells (st : AI) : scanMines st.knowledge ⊆ Ucells st := by
  intro c hc
  rw [mem_scanMines] at hc
  obtain ⟨s, hs, hcs⟩ := hc
  rw [Sentence.mem_known_mines] at hcs
  exact (mem_Ucells c st).2 ⟨s, hs, hcs.2⟩

/-! ### Shape of the marking folds -/

theorem AI.markSafeAll_knowledge (l : List Cell) (st : AI) :
    (st.markSafeAll l).knowledge
      = st.knowledge.map (fun s => l.foldl Sentence.mark_safe s) := by
  induction l generalizing st with
  | nil => simp [AI.markSafeAll]
  | cons c l ih =>
      rw [AI.markSafeAll, List.foldl_cons]
      rw [show (List.foldl AI.mark_safe (st.mark_safe c) l) = (st.mark_safe c).markSafeAll l
        from rfl]
      rw [ih, AI.mark_safe_def]
      simp [List.map_map, Function.comp]

theorem AI.markMineAll_knowledge (l : List Cell) (st : AI) :
    (st.markMineAll l).knowledge
      = st.knowledge.map (fun s => l.foldl Sentence.mark_mine s) := by
  induction l generalizing st with
  | nil => simp [AI.markMineAll]
  | cons c l ih =>
      rw [AI.markMineAll, List.foldl_cons]
      rw [show (List.foldl AI.mark_mine (st.mark_mine c) l) = (st.mark_mine c).markMineAll l
        from rfl]
      rw [ih, AI.mark_mine_def]
      simp [List.map_map, Function.comp]

theorem AI.markSafeAll_safes (l : List Cell) (st : AI) :
    (st.markSafeAll l).safes = st.safes ∪ l.toFinset := by
  induction l generalizing st with
  | nil => simp [AI.markSafeAll]
  | cons c l ih =>
      rw [AI.markSafeAll, List.foldl_cons]
      rw [show (List.foldl AI.mark_safe (st.mark_safe c) l) = (st.mark_safe c).markSafeAll l
        from rfl]
      rw [ih, AI.mark_safe_def]
      simp [Finset.insert_union, Finset.union_insert]

theorem AI.markSafeAll_mines (l : List Cell) (st : AI) :
    (st.markSafeAll l).mines = st.mines := by
  induction l generalizing st with
  | nil => rfl
  | cons c l ih =>
      rw [AI.markSafeAll, List.foldl_cons]
      exact ih (st.mark_safe c)

theorem AI.markSafeAll_moves (l : List Cell) (st : AI) :
    (st.markSafeAll l).moves_made = st.moves_made := by
  induction l generalizing st with
  | nil => rfl
  | cons c l ih =>
      rw [AI.markSafeAll, List.foldl_cons]
      exact ih (st.mark_safe c)

theorem AI.markMineAll_mines (l : List Cell) (st : AI) :
    (st.markMineAll l).mines = st.mines ∪ l.toFinset := by
  induction l generalizing st with
  | nil => simp [AI.markMineAll]
  | cons c l ih =>
      rw [AI.markMineAll, List.foldl_cons]
      rw [show (List.foldl AI.mark_mine (st.mark_mine c) l) = (st.mark_mine c).markMineAll l
        from rfl]
      rw [ih, AI.mark_mine_def]
      simp [Finset.insert_union, Finset.union_insert]

theorem AI.markMineAll_safes (l : List Cell) (st : AI) :
    (st.markMineAll l).safes = st.safes := by
  induction l generalizing st with
  | nil => rfl
  | cons c l ih =>
      rw [AI.markMineAll, List.foldl_cons]
      exact ih (st.mark_mine c)

theorem AI.markMineAll_moves (l : List Cell) (st : AI) :
    (st.markMineAll l).moves_made = st.moves_made := by
  induction l generalizing st with
  | nil => rfl
  | cons c l ih =>
      rw [AI.markMineAll, List.foldl_cons]
      exact ih (st.mark_mine c)

theorem foldl_mark_safe_cells (l : List Cell) (s : Sentence) :
    (l.foldl Sentence.mark_safe s).cells = s.cells \ l.toFinset := by
  induction l generalizing s with
  | nil => simp
  | cons c l ih =>
      rw [List.foldl_cons, ih, Sentence.mark_safe_cells]
      ext x
      simp [Finset.mem_erase]
      tauto

theorem foldl_mark_mine_cells (l : List Cell) (s : Sentence) :
    (l.foldl Sentence.mark_mine s).cells = s.cells \ l.toFinset := by
  induction l generalizing s with
  | nil => simp
  | cons c l ih =>
      rw [List.foldl_cons, ih, Sentence.mark_mine_cells]
      ext x
      simp [Finset.mem_erase]
      tauto

/-! ### Membership facts about `inferNew` -/

theorem mem_inferNew (kn : List Sentence) (t : Sentence) (ht : t ∈ inferNew kn) :
    ∃ s1 ∈ kn, ∃ s2 ∈ kn, s1 ≠ s2 ∧ s2.cells ⊆ s1.cells ∧
      t = Sentence.mk (s1.cells \ s2.cells) (s1.count - s2.count) ∧ t ∉ kn := by
  rw [inferNew, List.mem_flatMap] at ht
  obtain ⟨s1, hs1, ht⟩ := ht
  rw [List.mem_filterMap] at ht
  obtain ⟨s2, hs2, ht⟩ := ht
  by_cases h : s1 ≠ s2 ∧ s2.cells ⊆ s1.cells
  · rw [if_pos h] at ht
    by_cases h2 : Sentence.mk (s1.cells \ s2.cells) (s1.count - s2.count) ∈ kn
    · rw [if_pos h2] at ht
      cases ht
    · rw [if_neg h2] at ht
      have heq := Option.some.inj ht
      exact ⟨s1, hs1, s2, hs2, h.1, h.2, heq.symm, heq ▸ h2⟩
  · rw [if_neg h] at ht
    cases ht

theorem inferNew_complete (kn : List Sentence) (A B : Sentence)
    (hA : A ∈ kn) (hB : B ∈ kn) (hne : A ≠ B) (hsub : B.cells ⊆ A.cells) :
    Sentence.mk (A.cells \ B.cells) (A.count - B.count) ∈ kn ∨
    Sentence.mk (A.cells \ B.cells) (A.count - B.count) ∈ inferNew kn := by
  by_cases h2 : Sentence.mk (A.cells \ B.cells) (A.count - B.count) ∈ kn
  · exact Or.inl h2
  · refine Or.inr ?_
    rw [inferNew, List.mem_flatMap]
    refine ⟨A, hA, ?_⟩
    rw [List.mem_filterMap]
    refine ⟨B, hB, ?_⟩
    rw [if_pos ⟨hne, hsub⟩, if_neg h2]

/-! ### C5: termination of the deductive-closure loop -/

theorem closureStep_eq_some (st st1 : AI) (h : st.closureStep = some st1) :
    ¬(scanSafes st.knowledge = ∅ ∧ scanMines st.knowledge = ∅) ∧ st1 = st.closureBody := by
  rw [AI.closureStep] at h
  by_cases hb : scanSafes st.knowledge = ∅ ∧ scanMines st.knowledge = ∅
  · rw [if_pos hb] at h
    cases h
  · rw [if_neg hb] at h
    exact ⟨hb, (Option.some.inj h).symm⟩

theorem closureBody_cells_sub (st : AI) (t : Sentence) (ht : t ∈ st.closureBody.knowledge) :
    t.cells ⊆ Ucells st \ (scanSafes st.knowledge ∪ scanMines st.knowledge) := by
  have hm : ∀ u ∈ ((st.markSafeAll (cells_list (scanSafes st.knowledge))).markMineAll
      (cells_list (scanMines st.knowledge))).knowledge,
      u.cells ⊆ Ucells st \ (scanSafes st.knowledge ∪ scanMines st.knowledge) := by
    intro u hu
    rw [AI.markMineAll_knowledge, AI.markSafeAll_knowledge, List.map_map, List.mem_map] at hu
    obtain ⟨s, hs, hu⟩ := hu
    intro x hx
    rw [← hu] at hx
    simp only [Function.comp] at hx
    rw [foldl_mark_mine_cells, Finset.mem_sdiff] at hx
    obtain ⟨hx1, hx2⟩ := hx
    rw [foldl_mark_safe_cells, Finset.mem_sdiff] at hx1
    obtain ⟨hx0, hx3⟩ := hx1
    rw [cells_list_toFinset] at hx2 hx3
    rw [Finset.mem_sdiff, Finset.mem_union]
    exact ⟨(mem_Ucells x st).2 ⟨s, hs, hx0⟩, fun hor => hor.elim hx3 hx2⟩
  rw [AI.closureBody] at ht
  simp only [List.mem_append] at ht
  rcases ht with ht | ht
  · exact hm t ht
  · obtain ⟨s1, hs1, _, _, _, _, heq, _⟩ := mem_inferNew _ t ht
    intro x hx
    rw [heq] at hx
    exact hm s1 hs1 (Finset.mem_sdiff.1 hx).1

theorem closureStep_measure (st st1 : AI) (h : st.closureStep = some st1) :
    (Ucells st1).card < (Ucells st).card := by
  obtain ⟨hb, heq⟩ := closureStep_eq_some st st1 h
  set D := scanSafes st.knowledge ∪ scanMines st.knowledge with hD
  have hDsub : D ⊆ Ucells st :=
    Finset.union_subset (scanSafes_subset_Ucells st) (scanMines_subset_Ucells st)
  have hDne : D.Nonempty := by
    rw [Finset.nonempty_iff_ne_empty]
    intro hcontra
    rw [hD] at hcontra
    exact hb ⟨Finset.union_eq_empty.1 hcontra |>.1, Finset.union_eq_empty.1 hcontra |>.2⟩
  have hsub : Ucells st1 ⊆ Ucells st \ D := by
    intro x hx
    rw [mem_Ucells] at hx
    obtain ⟨t, ht, hxt⟩ := hx
    rw [heq] at ht
    exact closureBody_cells_sub st t ht hxt
  calc (Ucells st1).card ≤ (Ucells st \ D).card := Finset.card_le_card hsub
    _ < (Ucells st).card := Finset.card_lt_card (Finset.sdiff_ssubset hDsub hDne)

theorem closure_fuel_le (n : Nat) :
    ∀ st : AI, (Ucells st).card ≤ n → (st.closureFuel n).closureStep = none := by
  induction n with
  | zero =>
      intro st hst
      have hU : Ucells st = ∅ := Finset.card_eq_zero.1 (Nat.le_zero.1 hst)
      have h1 : scanSafes st.knowledge = ∅ := by
        have := scanSafes_subset_Ucells st
        rw [hU] at this
        exact Finset.subset_empty.1 this
      have h2 : scanMines st.knowledge = ∅ := by
        have := scanMines_subset_Ucells st
        rw [hU] at this
        exact Finset.subset_empty.1 this
      rw [AI.closureFuel, AI.closureStep, if_pos ⟨h1, h2⟩]
  | succ n ih =>
      intro st hst
      cases hcs : st.closureStep with
      | none =>
          have hthis : st.closureFuel (n + 1) = st := by
            rw [AI.closureFuel, hcs]
          rw [hthis]
          exact hcs
      | some st1 =>
          have hthis : st.closureFuel (n + 1) = st1.closureFuel n := by
            rw [AI.closureFuel, hcs]
          rw [hthis]
          exact ih st1 (Nat.lt_succ_iff.1
            (Nat.lt_of_lt_of_le (closureStep_measure st st1 hcs) hst))

/-- C5: the deductive-closure loop always terminates: iterating the loop
body from any state for as many rounds as there are cells mentioned in
sentences reaches the break condition (both scans empty), because every
non-breaking round strictly shrinks `Ucells`.  `AI.add_knowledge` runs the
loop with exactly this fuel, so its fuelled closure coincides with the
unbounded `while True` loop. -/
theorem closure_terminates (st : AI) :
    (st.closureFuel (Ucells st).card).closureStep = none :=
  closure_fuel_le (Ucells st).card st le_rfl

theorem closureFuel_of_none (st : AI) (h : st.closureStep = none) :
    ∀ m, st.closureFuel m = st := by
  intro m
  cases m with
  | zero => rfl
  | succ m => rw [AI.closureFuel, h]

/-- Any fuel at least `(Ucells st).card` yields the same final state, so the
fuel chosen in `AI.add_knowledge` is canonical. -/
theorem closureFuel_stable (n : Nat) :
    ∀ m (st : AI), (Ucells st).card ≤ n → n ≤ m → st.closureFuel m = st.closureFuel n := by
  induction n with
  | zero =>
      intro m st hst _
      have hnone : st.closureStep = none := by
        have := closure_fuel_le 0 st hst
        rwa [AI.closureFuel] at this
      rw [closureFuel_of_none st hnone m, closureFuel_of_none st hnone 0]
  | succ n ih =>
      intro m st hst hnm
      cases hcs : st.closureStep with
      | none => rw [closureFuel_of_none st hcs m, closureFuel_of_none st hcs (n + 1)]
      | some st1 =>
          obtain ⟨m', rfl⟩ := Nat.exists_eq_add_of_le hnm
          have h1 : st.closureFuel (n + 1 + m') = st1.closureFuel (n + m') := by
            rw [show n + 1 + m' = (n + m') + 1 from by omega, AI.closureFuel, hcs]
          have h2 : st.closureFuel (n + 1) = st1.closureFuel n := by
            rw [AI.closureFuel, hcs]
          rw [h1, h2]
          exact ih (n + m') st1
            (Nat.lt_succ_iff.1 (Nat.lt_of_lt_of_le (closureStep_measure st st1 hcs) hst))
            (Nat.le_add_right n m')

/-! ### C3: sentences never mention resolved cells -/

theorem noResolved_mark_safe (st : AI) (c : Cell) (h : NoResolved st) :
    NoResolved (st.mark_safe c) := by
  intro s' hs' x hx
  rw [AI.mark_safe_def] at hs'
  simp only [List.mem_map] at hs'
  obtain ⟨s, hs, rfl⟩ := hs'
  rw [Sentence.mark_safe_cells, Finset.mem_erase] at hx
  have hx2 := h s hs x hx.2
  refine ⟨hx2.1, ?_⟩
  show x ∉ insert c st.safes
  rw [Finset.mem_insert]
  push_neg
  exact ⟨hx.1, hx2.2⟩

theorem noResolved_mark_mine (st : AI) (c : Cell) (h : NoResolved st) :
    NoResolved (st.mark_mine c) := by
  intro s' hs' x hx
  rw [AI.mark_mine_def] at hs'
  simp only [List.mem_map] at hs'
  obtain ⟨s, hs, rfl⟩ := hs'
  rw [Sentence.mark_mine_cells, Finset.mem_erase] at hx
  have hx2 := h s hs x hx.2
  refine ⟨?_, hx2.2⟩
  show x ∉ insert c st.mines
  rw [Finset.mem_insert]
  push_neg
  exact ⟨hx.1, hx2.1⟩

theorem noResolved_markSafeAll (l : List Cell) (st : AI) (h : NoResolved st) :
    NoResolved (st.markSafeAll l) := by
  induction l generalizing st with
  | nil => exact h
  | cons c l ih =>
      rw [AI.markSafeAll, List.foldl_cons]
      exact ih (st.mark_safe c) (noResolved_mark_safe st c h)

theorem noResolved_markMineAll (l : List Cell) (st : AI) (h : NoResolved st) :
    NoResolved (st.markMineAll l) := by
  induction l generalizing st with
  | nil => exact h
  | cons c l ih =>
      rw [AI.markMineAll, List.foldl_cons]
      exact ih (st.mark_mine c) (noResolved_mark_mine st c h)

theorem noResolved_closureBody (st : AI) (h : NoResolved st) :
    NoResolved st.closureBody := by
  have hm : NoResolved ((st.markSafeAll (cells_list (scanSafes st.knowledge))).markMineAll
      (cells_list (scanMines st.knowledge))) :=
    noResolved_markMineAll _ _ (noResolved_markSafeAll _ _ h)
  intro t ht x hx
  rw [AI.closureBody] at ht
  simp only [List.mem_append] at ht
  rcases ht with ht | ht
  · exact hm t ht x hx
  · obtain ⟨s1, hs1, _, _, _, _, heq, _⟩ := mem_inferNew _ t ht
    rw [heq] at hx
    exact hm s1 hs1 x (Finset.mem_sdiff.1 hx).1

theorem noResolved_closureFuel (n : Nat) :
    ∀ st : AI, NoResolved st → NoResolved (st.closureFuel n) := by
  induction n with
  | zero => intro st h; exact h
  | succ n ih =>
      intro st h
      cases hcs : st.closureStep with
      | none => rw [AI.closureFuel, hcs]; exact h
      | some st1 =>
          rw [AI.closureFuel, hcs]
          obtain ⟨_, heq⟩ := closureStep_eq_some st st1 hcs
          exact ih st1 (heq ▸ noResolved_closureBody st h)

theorem noResolved_add_knowledge (st : AI) (c : Cell) (n : Int) (h : NoResolved st) :
    NoResolved (st.add_knowledge c n) := by
  rw [AI.add_knowledge]
  apply noResolved_closureFuel
  intro t ht x hx
  simp only [List.mem_append, List.mem_singleton] at ht
  have hpre : NoResolved (st.preState c) := by
    apply noResolved_mark_safe
    intro s hs y hy
    exact h s hs y hy
  rcases ht with ht | rfl
  · exact hpre t ht x hx
  · rw [AI.newSentence] at hx
    simp only [Finset.mem_filter] at hx
    exact ⟨hx.2.2.2, hx.2.2.1⟩

/-- C3: after any sequence of `add_knowledge` calls from a fresh AI, no
sentence of the knowledge list contains a cell that is in the `mines` set or
the `safes` set. -/
theorem no_resolved_cells_in_knowledge (h w : Int) (calls : List (Cell × Int)) :
    ∀ s ∈ (runGame h w calls).knowledge, ∀ c ∈ s.cells,
      c ∉ (runGame h w calls).mines ∧ c ∉ (runGame h w calls).safes := by
  have hgen : ∀ (l : List (Cell × Int)) (st : AI), NoResolved st →
      NoResolved (l.foldl (fun st p => st.add_knowledge p.1 p.2) st) := by
    intro l
    induction l with
    | nil => intro st hst; exact hst
    | cons p l ih =>
        intro st hst
        rw [List.foldl_cons]
        exact ih _ (noResolved_add_knowledge st p.1 p.2 hst)
  exact hgen calls (AI.start h w) (by intro s hs; cases hs)

/-- Witness for C3 after one concrete observation. -/
theorem no_resolved_cells_in_knowledge_witness :
    ((0:Int),(1:Int)) ∉ (runGame 2 2 [(((0:Int),(0:Int)), (1:Int))]).mines ∧
    ((0:Int),(1:Int)) ∉ (runGame 2 2 [(((0:Int),(0:Int)), (1:Int))]).safes :=
  no_resolved_cells_in_knowledge 2 2 [(((0:Int),(0:Int)), (1:Int))]
    (Sentence.mk {((0:Int),(1:Int)), ((1:Int),(0:Int)), ((1:Int),(1:Int))} 1)
    (by decide) ((0:Int),(1:Int)) (by decide)

/-! ### Board dimensions are never modified -/

theorem AI.markSafeAll_dims (l : List Cell) (st : AI) :
    (st.markSafeAll l).height = st.height ∧ (st.markSafeAll l).width = st.width := by
  induction l generalizing st with
  | nil => exact ⟨rfl, rfl⟩
  | cons c l ih =>
      rw [AI.markSafeAll, List.foldl_cons]
      exact ih (st.mark_safe c)

theorem AI.markMineAll_dims (l : List Cell) (st : AI) :
    (st.markMineAll l).height = st.height ∧ (st.markMineAll l).width = st.width := by
  induction l generalizing st with
  | nil => exact ⟨rfl, rfl⟩
  | cons c l ih =>
      rw [AI.markMineAll, List.foldl_cons]
      exact ih (st.mark_mine c)

theorem AI.closureBody_dims (st : AI) :
    st.closureBody.height = st.height ∧ st.closureBody.width = st.width := by
  have h1 := AI.markMineAll_dims (cells_list (scanMines st.knowledge))
    (st.markSafeAll (cells_list (scanSafes st.knowledge)))
  have h2 := AI.markSafeAll_dims (cells_list (scanSafes st.knowledge)) st
  exact ⟨h1.1.trans h2.1, h1.2.trans h2.2⟩

theorem AI.closureFuel_dims (n : Nat) : ∀ st : AI,
    (st.closureFuel n).height = st.height ∧ (st.closureFuel n).width = st.width := by
  induction n with
  | zero => intro st; exact ⟨rfl, rfl⟩
  | succ n ih =>
      intro st
      cases hcs : st.closureStep with
      | none => rw [AI.closureFuel, hcs]; exact ⟨rfl, rfl⟩
      | some st1 =>
          rw [AI.closureFuel, hcs]
          obtain ⟨_, heq⟩ := closureStep_eq_some st st1 hcs
          have hd := AI.closureBody_dims st
          rw [heq] at *
          exact ⟨(ih _).1.trans hd.1, (ih _).2.trans hd.2⟩

theorem AI.add_knowledge_dims (st : AI) (c : Cell) (n : Int) :
    (st.add_knowledge c n).height = st.height ∧ (st.add_knowledge c n).width = st.width := by
  rw [AI.add_knowledge]
  exact AI.closureFuel_dims _ _

/-! ### C4: soundness with respect to a truthful oracle -/

theorem sound_mark_safe (M : Finset Cell) (st : AI) (c : Cell)
    (h : Sound M st) (hc : c ∉ M) : Sound M (st.mark_safe c) := by
  obtain ⟨h1, h2, h3⟩ := h
  refine ⟨h1, ?_, ?_⟩
  · intro x hx
    have hx2 : x ∈ insert c st.safes := hx
    rw [Finset.mem_insert] at hx2
    rcases hx2 with rfl | hx2
    · exact hc
    · exact h2 x hx2
  · intro t ht
    have ht2 : t ∈ st.knowledge.map (fun s => s.mark_safe c) := ht
    rw [List.mem_map] at ht2
    obtain ⟨s, hs, rfl⟩ := ht2
    rw [Sentence.mark_safe_count, Sentence.mark_safe_cells]
    have hset : s.cells.erase c ∩ M = s.cells ∩ M := by
      ext x
      simp only [Finset.mem_inter, Finset.mem_erase]
      constructor
      · rintro ⟨⟨_, hx⟩, hm⟩
        exact ⟨hx, hm⟩
      · rintro ⟨hx, hm⟩
        exact ⟨⟨fun heq => hc (heq ▸ hm), hx⟩, hm⟩
    rw [hset]
    exact h3 s hs

theorem sound_mark_mine (M : Finset Cell) (st : AI) (c : Cell)
    (h : Sound M st) (hc : c ∈ M) : Sound M (st.mark_mine c) := by
  obtain ⟨h1, h2, h3⟩ := h
  refine ⟨?_, h2, ?_⟩
  · intro x hx
    have hx2 : x ∈ insert c st.mines := hx
    rw [Finset.mem_insert] at hx2
    rcases hx2 with rfl | hx2
    · exact hc
    · exact h1 hx2
  · intro t ht
    have ht2 : t ∈ st.knowledge.map (fun s => s.mark_mine c) := ht
    rw [List.mem_map] at ht2
    obtain ⟨s, hs, rfl⟩ := ht2
    rw [Sentence.mark_mine_count, Sentence.mark_mine_cells]
    have h3s := h3 s hs
    by_cases hcs : c ∈ s.cells
    · rw [if_pos hcs]
      have hset : s.cells.erase c ∩ M = (s.cells ∩ M).erase c := by
        ext x
        simp only [Finset.mem_inter, Finset.mem_erase]
        tauto
      have hmem : c ∈ s.cells ∩ M := Finset.mem_inter.2 ⟨hcs, hc⟩
      have hcard := Finset.card_erase_add_one hmem
      rw [hset]
      omega
    · rw [if_neg hcs, Finset.erase_eq_of_not_mem hcs]
      exact h3s

theorem scanSafes_not_in_M (M : Finset Cell) (st : AI) (h : Sound M st) :
    ∀ c ∈ scanSafes st.knowledge, c ∉ M := by
  intro c hc hcM
  rw [mem_scanSafes] at hc
  obtain ⟨s, hs, hcs⟩ := hc
  rw [Sentence.mem_known_safes] at hcs
  have h3 := h.2.2 s hs
  rw [hcs.1] at h3
  have hcard : (s.cells ∩ M).card = 0 := by exact_mod_cast h3
  have hempty : s.cells ∩ M = ∅ := Finset.card_eq_zero.1 hcard
  have hmem : c ∈ s.cells ∩ M := Finset.mem_inter.2 ⟨hcs.2, hcM⟩
  rw [hempty] at hmem
  cases hmem

theorem scanMines_in_M (M : Finset Cell) (st : AI) (h : Sound M st) :
    ∀ c ∈ scanMines st.knowledge, c ∈ M := by
  intro c hc
  rw [mem_scanMines] at hc
  obtain ⟨s, hs, hcs⟩ := hc
  rw [Sentence.mem_known_mines] at hcs
  obtain ⟨⟨hcard, _⟩, hcell⟩ := hcs
  have h3 := h.2.2 s hs
  have hcards : (s.cells ∩ M).card = s.cells.card := by
    have hInt : ((s.cells ∩ M).card : Int) = (s.cells.card : Int) := by rw [h3, ← hcard]
    exact_mod_cast hInt
  have heq : s.cells ∩ M = s.cells :=
    Finset.eq_of_subset_of_card_le Finset.inter_subset_left (le_of_eq hcards.symm)
  have hmem : c ∈ s.cells ∩ M := heq.symm ▸ hcell
  exact (Finset.mem_inter.1 hmem).2

theorem sound_markSafeAll (M : Finset Cell) (l : List Cell) (st : AI)
    (h : Sound M st) (hl : ∀ c ∈ l, c ∉ M) : Sound M (st.markSafeAll l) := by
  induction l generalizing st with
  | nil => exact h
  | cons c l ih =>
      rw [AI.markSafeAll, List.foldl_cons]
      exact ih (st.mark_safe c)
        (sound_mark_safe M st c h (hl c (List.mem_cons_self c l)))
        (fun x hx => hl x (List.mem_cons_of_mem c hx))

theorem sound_markMineAll (M : Finset Cell) (l : List Cell) (st : AI)
    (h : Sound M st) (hl : ∀ c ∈ l, c ∈ M) : Sound M (st.markMineAll l) := by
  induction l generalizing st with
  | nil => exact h
  | cons c l ih =>
      rw [AI.markMineAll, List.foldl_cons]
      exact ih (st.mark_mine c)
        (sound_mark_mine M st c h (hl c (List.mem_cons_self c l)))
        (fun x hx => hl x (List.mem_cons_of_mem c hx))

theorem sound_inferNew (M : Finset Cell) (kn : List Sentence)
    (hkn : ∀ s ∈ kn, ((s.cells ∩ M).card : Int) = s.count) :
    ∀ t ∈ inferNew kn, ((t.cells ∩ M).card : Int) = t.count := by
  intro t ht
  obtain ⟨s1, hs1, s2, hs2, _, hsub, heq, _⟩ := mem_inferNew kn t ht
  rw [heq]
  have hset : (s1.cells \ s2.cells) ∩ M = (s1.cells ∩ M) \ (s2.cells ∩ M) := by
    ext x
    simp only [Finset.mem_inter, Finset.mem_sdiff]
    tauto
  have hsub2 : s2.cells ∩ M ⊆ s1.cells ∩ M := by
    intro x hx
    rw [Finset.mem_inter] at hx ⊢
    exact ⟨hsub hx.1, hx.2⟩
  have hcard := Finset.card_sdiff hsub2
  have hle := Finset.card_le_card hsub2
  have h1 := hkn s1 hs1
  have h2 := hkn s2 hs2
  show (((s1.cells \ s2.cells) ∩ M).card : Int) = s1.count - s2.count
  rw [hset, hcard]
  omega

theorem sound_closureBody (M : Finset Cell) (st : AI) (h : Sound M st) :
    Sound M st.closureBody := by
  have hm : Sound M ((st.markSafeAll (cells_list (scanSafes st.knowledge))).markMineAll
      (cells_list (scanMines st.knowledge))) := by
    apply sound_markMineAll
    · exact sound_markSafeAll M _ st h
        (fun c hc => scanSafes_not_in_M M st h c ((mem_cells_list c _).1 hc))
    · intro c hc
      exact scanMines_in_M M st h c ((mem_cells_list c _).1 hc)
  obtain ⟨hm1, hm2, hm3⟩ := hm
  refine ⟨hm1, hm2, ?_⟩
  intro t ht
  have ht2 : t ∈ ((st.markSafeAll (cells_list (scanSafes st.knowledge))).markMineAll
      (cells_list (scanMines st.knowledge))).knowledge
      ++ inferNew ((st.markSafeAll (cells_list (scanSafes st.knowledge))).markMineAll
      (cells_list (scanMines st.knowledge))).knowledge := ht
  rw [List.mem_append] at ht2
  rcases ht2 with ht2 | ht2
  · exact hm3 t ht2
  · exact sound_inferNew M _ hm3 t ht2

theorem sound_closureFuel (M : Finset Cell) (n : Nat) :
    ∀ st : AI, Sound M st → Sound M (st.closureFuel n) := by
  induction n with
  | zero => intro st h; exact h
  | succ n ih =>
      intro st h
      cases hcs : st.closureStep with
      | none => rw [AI.closureFuel, hcs]; exact h
      | some st1 =>
          rw [AI.closureFuel, hcs]
          obtain ⟨_, heq⟩ := closureStep_eq_some st st1 hcs
          exact ih st1 (heq ▸ sound_closureBody M st h)

theorem preState_safes (st : AI) (cell : Cell) :
    (st.preState cell).safes = insert cell st.safes := rfl

theorem preState_mines (st : AI) (cell : Cell) :
    (st.preState cell).mines = st.mines := rfl

theorem preState_knowledge (st : AI) (cell : Cell) :
    (st.preState cell).knowledge = st.knowledge.map (fun s => s.mark_safe cell) := rfl

theorem newSentence_cells (st : AI) (cell : Cell) (n : Int) :
    (st.newSentence cell n).cells
      = (box cell).toFinset.filter (fun q => (st.preState cell).inBounds q
          ∧ q ∉ (st.preState cell).safes ∧ q ∉ (st.preState cell).mines) := rfl

theorem newSentence_count (st : AI) (cell : Cell) (n : Int) :
    (st.newSentence cell n).count
      = n - (((box cell).toFinset.filter
          (fun q => q ∈ (st.preState cell).mines)).card : Int) := rfl

theorem newSentence_sound (M : Finset Cell) (st : AI) (cell : Cell)
    (hM : ∀ q ∈ M, inb st.height st.width q) (hcell : cell ∉ M)
    (hmines : st.mines ⊆ M) (hsafes : ∀ c ∈ st.safes, c ∉ M) :
    (((st.newSentence cell ((nearby_mines st.height st.width M cell : Nat) : Int)).cells
        ∩ M).card : Int)
      = (st.newSentence cell (nearby_mines st.height st.width M cell)).count := by
  have hU : (st.newSentence cell ((nearby_mines st.height st.width M cell : Nat) : Int)).cells
      ∩ M
      = ((box cell).toFinset.filter (fun q => inb st.height st.width q ∧ q ∈ M)).filter
          (fun q => q ∉ st.mines) := by
    rw [newSentence_cells]
    ext q
    rw [Finset.mem_inter, Finset.mem_filter, Finset.mem_filter, Finset.mem_filter]
    constructor
    · rintro ⟨⟨hqB, hinb, _, hqmine⟩, hqM⟩
      exact ⟨⟨hqB, hinb, hqM⟩, hqmine⟩
    · rintro ⟨⟨hqB, hinb, hqM⟩, hqmine⟩
      have hqsafe : q ∈ (st.preState cell).safes → False := by
        rw [preState_safes, Finset.mem_insert]
        rintro (rfl | hq)
        · exact hcell hqM
        · exact hsafes q hq hqM
      exact ⟨⟨hqB, hinb, hqsafe, hqmine⟩, hqM⟩
  have hn : nearby_mines st.height st.width M cell
      = ((box cell).toFinset.filter (fun q => inb st.height st.width q ∧ q ∈ M)).card := by
    rw [nearby_mines]
    have hsets : (box cell).toFinset.filter
        (fun q => q ≠ cell ∧ (0 ≤ q.1 ∧ q.1 < st.height ∧ 0 ≤ q.2 ∧ q.2 < st.width) ∧ q ∈ M)
        = (box cell).toFinset.filter (fun q => inb st.height st.width q ∧ q ∈ M) := by
      ext q
      rw [Finset.mem_filter, Finset.mem_filter]
      constructor
      · rintro ⟨hqB, _, hinb, hqM⟩
        exact ⟨hqB, hinb, hqM⟩
      · rintro ⟨hqB, hinb, hqM⟩
        exact ⟨hqB, fun heq => hcell (heq ▸ hqM), hinb, hqM⟩
    rw [hsets]
  have hmc : (box cell).toFinset.filter (fun q => q ∈ (st.preState cell).mines)
      = ((box cell).toFinset.filter (fun q => inb st.height st.width q ∧ q ∈ M)).filter
          (fun q => q ∈ st.mines) := by
    ext q
    rw [Finset.mem_filter, Finset.mem_filter, Finset.mem_filter]
    constructor
    · rintro ⟨hqB, hqmine⟩
      have hqmine2 : q ∈ st.mines := hqmine
      exact ⟨⟨hqB, hM q (hmines hqmine2), hmines hqmine2⟩, hqmine2⟩
    · rintro ⟨⟨hqB, _, _⟩, hqmine⟩
      exact ⟨hqB, hqmine⟩
  have hpart : (((box cell).toFinset.filter
        (fun q => inb st.height st.width q ∧ q ∈ M)).filter (fun q => q ∈ st.mines)).card
      + (((box cell).toFinset.filter
        (fun q => inb st.height st.width q ∧ q ∈ M)).filter (fun q => q ∉ st.mines)).card
      = ((box cell).toFinset.filter (fun q => inb st.height st.width q ∧ q ∈ M)).card :=
    Finset.filter_card_add_filter_neg_card_eq_card _
  rw [newSentence_count, hU, hmc, hn]
  omega

theorem sound_add_knowledge (M : Finset Cell) (st : AI) (cell : Cell)
    (hM : ∀ q ∈ M, inb st.height st.width q) (hcell : cell ∉ M) (h : Sound M st) :
    Sound M (st.add_knowledge cell (nearby_mines st.height st.width M cell)) := by
  rw [AI.add_knowledge]
  apply sound_closureFuel
  have hpre : Sound M (st.preState cell) := by
    apply sound_mark_safe M _ cell _ hcell
    exact ⟨h.1, h.2.1, h.2.2⟩
  obtain ⟨hp1, hp2, hp3⟩ := hpre
  refine ⟨hp1, hp2, ?_⟩
  intro t ht
  have ht2 : t ∈ (st.preState cell).knowledge
      ++ [st.newSentence cell (nearby_mines st.height st.width M cell)] := ht
  rw [List.mem_append, List.mem_singleton] at ht2
  rcases ht2 with ht2 | rfl
  · exact hp3 t ht2
  · exact newSentence_sound M st cell hM hcell h.1 h.2.1

theorem sound_runGame (h w : Int) (M : Finset Cell) (calls : List (Cell × Int))
    (hM : ∀ q ∈ M, inb h w q) (hcalls : ∀ p ∈ calls, Truthful h w M p) :
    Sound M (runGame h w calls) := by
  rw [runGame]
  have hgen : ∀ (l : List (Cell × Int)) (st : AI), st.height = h → st.width = w →
      (∀ p ∈ l, Truthful h w M p) → Sound M st →
      Sound M (l.foldl (fun st p => st.add_knowledge p.1 p.2) st) := by
    intro l
    induction l with
    | nil => intro st _ _ _ hst; exact hst
    | cons p l ih =>
        intro st hh hw hl hst
        rw [List.foldl_cons]
        obtain ⟨hp1, hp2⟩ := hl p (List.mem_cons_self p l)
        have he : st.add_knowledge p.1 p.2
            = st.add_knowledge p.1 (nearby_mines st.height st.width M p.1) := by
          rw [hp2, hh, hw]
        have hsound := sound_add_knowledge M st p.1
          (by rw [hh, hw]; exact hM) hp1 hst
        rw [he]
        have hd := AI.add_knowledge_dims st p.1 (nearby_mines st.height st.width M p.1)
        exact ih _ (hd.1.trans hh) (hd.2.trans hw)
          (fun q hq => hl q (List.mem_cons_of_mem p hq)) hsound
  exact hgen calls (AI.start h w) rfl rfl hcalls
    ⟨Finset.empty_subset M, fun c hc => absurd hc (Finset.not_mem_empty c),
      fun s hs => absurd hs (List.not_mem_nil s)⟩

/-- C4 counterexample: with inconsistent reported counts the invariant
`safes ∩ mines = ∅` fails.  On a 1-by-2 board, observing `(0,0)` with count 1
makes the AI deduce `(0,1)` is a mine; a subsequent observation of `(0,1)`
(reported count 0) marks that same cell safe, so `(0,1)` ends in both sets. -/
theorem safes_mines_overlap_cex :
    ((0:Int),(1:Int)) ∈ (runGame 1 2
      [(((0:Int),(0:Int)), (1:Int)), (((0:Int),(1:Int)), (0:Int))]).safes ∧
    ((0:Int),(1:Int)) ∈ (runGame 1 2
      [(((0:Int),(0:Int)), (1:Int)), (((0:Int),(1:Int)), (0:Int))]).mines := by
  decide

/-- C4 (amended): when every observation is truthful for some fixed in-bounds
mine set — the observed cell is never a mine and the reported count is the
oracle's true nearby-mine count — `safes` and `mines` stay disjoint after
every sequence of `add_knowledge` calls (the AI is sound: `mines` only holds
real mines and `safes` only non-mines).  Without the truthfulness
precondition the disjointness fails (`safes_mines_overlap_cex`). -/
theorem safes_mines_disjoint_of_truthful (h w : Int) (M : Finset Cell)
    (calls : List (Cell × Int)) (hM : ∀ q ∈ M, inb h w q)
    (hcalls : ∀ p ∈ calls, Truthful h w M p) :
    (runGame h w calls).safes ∩ (runGame h w calls).mines = ∅ := by
  have hs := sound_runGame h w M calls hM hcalls
  rw [Finset.eq_empty_iff_forall_not_mem]
  intro x hx
  rw [Finset.mem_inter] at hx
  exact hs.2.1 x hx.1 (hs.1 hx.2)

/-- Witness for the amended C4 on a concrete truthful game. -/
theorem safes_mines_disjoint_of_truthful_witness :
    (runGame 2 2 [(((0:Int),(0:Int)), (1:Int))]).safes
      ∩ (runGame 2 2 [(((0:Int),(0:Int)), (1:Int))]).mines = ∅ :=
  safes_mines_disjoint_of_truthful 2 2 {((1:Int),(1:Int))}
    [(((0:Int),(0:Int)), (1:Int))] (by decide) (by decide)

/-! ### C2: duplicate sentences -/

/-- C2 counterexample: the knowledge list can retain two sentences with
identical content.  On a 2-by-3 board, after observing `(0,0)` with count 0
the list holds the resolved sentence `∅ = 0`; observing `(0,1)` with count 0
adds a sentence that in-place safe-marking also resolves to `∅ = 0`, and the
call returns with both copies retained — nothing ever removes sentences. -/
theorem duplicate_sentences_retained_cex :
    (runGame 2 3 [(((0:Int),(0:Int)), (0:Int)), (((0:Int),(1:Int)), (0:Int))]).knowledge
      = [Sentence.mk ∅ 0, Sentence.mk ∅ 0] := by
  decide

/-- C2 (amended): deduplication happens only when an inferred sentence is
appended: every sentence produced by the subset-inference pass is absent from
the knowledge list it was inferred from.  Sentences that become structurally
equal through in-place `mark_mine`/`mark_safe` resolution are all retained
(`duplicate_sentences_retained_cex`). -/
theorem inferred_sentence_not_already_present (kn : List Sentence) (t : Sentence)
    (ht : t ∈ inferNew kn) : t ∉ kn := by
  obtain ⟨_, _, _, _, _, _, _, hnot⟩ := mem_inferNew kn t ht
  exact hnot

/-- Witness for the amended C2 on a concrete knowledge list. -/
theorem inferred_sentence_not_already_present_witness :
    Sentence.mk {((0:Int),(1:Int))} 0
      ∉ [Sentence.mk {((0:Int),(0:Int)), ((0:Int),(1:Int))} 1,
         Sentence.mk {((0:Int),(0:Int))} 1] :=
  inferred_sentence_not_already_present
    [Sentence.mk {((0:Int),(0:Int)), ((0:Int),(1:Int))} 1,
     Sentence.mk {((0:Int),(0:Int))} 1]
    (Sentence.mk {((0:Int),(1:Int))} 0) (by decide)

/-! ### C1: subset inference -/

/-- C1 counterexample: the deductive closure does not always add the
difference sentence of a subset pair, because the loop breaks before the
inference step whenever its scan finds no new safes or mines.  With
knowledge holding exactly `A = {(0,0),(0,1),(0,2)} = 1` and
`B = {(0,0),(0,1)} = 1`, observing `(2,2)` with count 1 resolves nothing, so
`add_knowledge` returns with `A` and `B` still held, `{(0,2)} = 0` never
derived and `(0,2)` not marked safe — contradicting the claim. -/
theorem subset_inference_skipped_cex :
    Sentence.mk {((0:Int),(0:Int)), ((0:Int),(1:Int)), ((0:Int),(2:Int))} 1 ∈
      ((AI.mk 3 3 ∅ ∅ ∅ [Sentence.mk {((0:Int),(0:Int)), ((0:Int),(1:Int)), ((0:Int),(2:Int))} 1,
        Sentence.mk {((0:Int),(0:Int)), ((0:Int),(1:Int))} 1]).add_knowledge
        ((2:Int),(2:Int)) 1).knowledge ∧
    Sentence.mk {((0:Int),(0:Int)), ((0:Int),(1:Int))} 1 ∈
      ((AI.mk 3 3 ∅ ∅ ∅ [Sentence.mk {((0:Int),(0:Int)), ((0:Int),(1:Int)), ((0:Int),(2:Int))} 1,
        Sentence.mk {((0:Int),(0:Int)), ((0:Int),(1:Int))} 1]).add_knowledge
        ((2:Int),(2:Int)) 1).knowledge ∧
    (Sentence.mk {((0:Int),(0:Int)), ((0:Int),(1:Int))} 1).cells
      ⊆ (Sentence.mk {((0:Int),(0:Int)), ((0:Int),(1:Int)), ((0:Int),(2:Int))} 1).cells ∧
    Sentence.mk {((0:Int),(0:Int)), ((0:Int),(1:Int)), ((0:Int),(2:Int))} 1
      ≠ Sentence.mk {((0:Int),(0:Int)), ((0:Int),(1:Int))} 1 ∧
    Sentence.mk {((0:Int),(2:Int))} 0 ∉
      ((AI.mk 3 3 ∅ ∅ ∅ [Sentence.mk {((0:Int),(0:Int)), ((0:Int),(1:Int)), ((0:Int),(2:Int))} 1,
        Sentence.mk {((0:Int),(0:Int)), ((0:Int),(1:Int))} 1]).add_knowledge
        ((2:Int),(2:Int)) 1).knowledge ∧
    ((0:Int),(2:Int)) ∉
      ((AI.mk 3 3 ∅ ∅ ∅ [Sentence.mk {((0:Int),(0:Int)), ((0:Int),(1:Int)), ((0:Int),(2:Int))} 1,
        Sentence.mk {((0:Int),(0:Int)), ((0:Int),(1:Int))} 1]).add_knowledge
        ((2:Int),(2:Int)) 1).safes := by
  decide

/-- C1 (amended): subset inference runs only in closure rounds whose scan
resolved at least one new safe or mine; in such a pass over a knowledge list,
for every structurally distinct pair `(A, B)` with `B.cells ⊆ A.cells` the
difference sentence `(A.cells − B.cells, A.count − B.count)` is either
already present or produced by the pass.  In the particular scenario, an
observation that does trigger a resolution — observing `(2,2)` with count 3 —
makes the closure round derive `{(0,2)} = 0`, and `(0,2)` is marked safe by
the time `add_knowledge` returns. -/
theorem subset_inference_when_resolving :
    (∀ (kn : List Sentence) (A B : Sentence), A ∈ kn → B ∈ kn → A ≠ B →
      B.cells ⊆ A.cells →
      Sentence.mk (A.cells \ B.cells) (A.count - B.count) ∈ kn ∨
      Sentence.mk (A.cells \ B.cells) (A.count - B.count) ∈ inferNew kn) ∧
    Sentence.mk {((0:Int),(2:Int))} 0 ∈
      ((AI.closureStep (AI.mk 3 3 {((2:Int),(2:Int))} ∅ {((2:Int),(2:Int))}
        [Sentence.mk {((0:Int),(0:Int)), ((0:Int),(1:Int)), ((0:Int),(2:Int))} 1,
         Sentence.mk {((0:Int),(0:Int)), ((0:Int),(1:Int))} 1,
         Sentence.mk {((1:Int),(1:Int)), ((1:Int),(2:Int)), ((2:Int),(1:Int))} 3])).getD
        (AI.start 0 0)).knowledge ∧
    AI.closureStep (AI.mk 3 3 {((2:Int),(2:Int))} ∅ {((2:Int),(2:Int))}
        [Sentence.mk {((0:Int),(0:Int)), ((0:Int),(1:Int)), ((0:Int),(2:Int))} 1,
         Sentence.mk {((0:Int),(0:Int)), ((0:Int),(1:Int))} 1,
         Sentence.mk {((1:Int),(1:Int)), ((1:Int),(2:Int)), ((2:Int),(1:Int))} 3]) ≠ none ∧
    ((0:Int),(2:Int)) ∈
      ((AI.mk 3 3 ∅ ∅ ∅ [Sentence.mk {((0:Int),(0:Int)), ((0:Int),(1:Int)), ((0:Int),(2:Int))} 1,
        Sentence.mk {((0:Int),(0:Int)), ((0:Int),(1:Int))} 1]).add_knowledge
        ((2:Int),(2:Int)) 3).safes :=
  ⟨fun kn A B hA hB hne hsub => inferNew_complete kn A B hA hB hne hsub,
   by decide, by decide, by decide⟩

/-- Witness for the amended C1: the pass over a concrete list produces the
difference sentence. -/
theorem subset_inference_when_resolving_witness :
    Sentence.mk
        ((Sentence.mk {((0:Int),(0:Int)), ((0:Int),(1:Int))} 1).cells
          \ (Sentence.mk {((0:Int),(0:Int))} 1).cells)
        ((Sentence.mk {((0:Int),(0:Int)), ((0:Int),(1:Int))} 1).count
          - (Sentence.mk {((0:Int),(0:Int))} 1).count)
      ∈ [Sentence.mk {((0:Int),(0:Int)), ((0:Int),(1:Int))} 1,
         Sentence.mk {((0:Int),(0:Int))} 1] ∨
    Sentence.mk
        ((Sentence.mk {((0:Int),(0:Int)), ((0:Int),(1:Int))} 1).cells
          \ (Sentence.mk {((0:Int),(0:Int))} 1).cells)
        ((Sentence.mk {((0:Int),(0:Int)), ((0:Int),(1:Int))} 1).count
          - (Sentence.mk {((0:Int),(0:Int))} 1).count)
      ∈ inferNew [Sentence.mk {((0:Int),(0:Int)), ((0:Int),(1:Int))} 1,
         Sentence.mk {((0:Int),(0:Int))} 1] :=
  subset_inference_when_resolving.1
    [Sentence.mk {((0:Int),(0:Int)), ((0:Int),(1:Int))} 1, Sentence.mk {((0:Int),(0:Int))} 1]
    (Sentence.mk {((0:Int),(0:Int)), ((0:Int),(1:Int))} 1)
    (Sentence.mk {((0:Int),(0:Int))} 1)
    (by decide) (by decide) (by decide) (by decide)

/-! ### C6: the sentence appended for an observation -/

/-- C6 counterexample: the count of the constructed sentence is not always
the oracle count minus the known mines adjacent to the observed cell: the
`mine_count` loop also tests the observed cell itself.  After observing
`(1,1)` with count 8 on a 3-by-3 board all eight neighbours — including
`(0,0)` — are known mines; constructing the observation sentence for `(0,0)`
with oracle count 0 yields count `0 - 3` (the 3-by-3 block holds known mines
`(0,0)`, `(0,1)`, `(1,0)`), not `0 - 2` as the claim states. -/
theorem observe_sentence_count_cex :
    ((0:Int),(0:Int)) ∈ ((AI.start 3 3).add_knowledge ((1:Int),(1:Int)) 8).mines ∧
    ((((AI.start 3 3).add_knowledge ((1:Int),(1:Int)) 8).newSentence
        ((0:Int),(0:Int)) 0).count = -3) ∧
    (specAdjacentMines ((AI.start 3 3).add_knowledge ((1:Int),(1:Int)) 8)
        ((0:Int),(0:Int)) = 2) ∧
    ((((AI.start 3 3).add_knowledge ((1:Int),(1:Int)) 8).newSentence
        ((0:Int),(0:Int)) 0).count
      ≠ 0 - (specAdjacentMines ((AI.start 3 3).add_knowledge ((1:Int),(1:Int)) 8)
        ((0:Int),(0:Int)) : Int)) := by
  decide

/-- C6 (amended): the sentence constructed for an observation always has as
cells the in-bounds 8-neighborhood of the observed cell minus the cell itself
and minus every cell already in `safes` or `mines`; its count is the oracle
count minus the already-known mines adjacent to the cell provided the
observed cell is not itself a known mine (otherwise the 3-by-3 scan also
counts the centre, `observe_sentence_count_cex`). -/
theorem observe_sentence_characterization (st : AI) (cell : Cell) (n : Int) :
    (st.newSentence cell n).cells = specObservedCells st cell ∧
    (cell ∉ st.mines →
      (st.newSentence cell n).count = n - (specAdjacentMines st cell : Int)) := by
  constructor
  · rw [newSentence_cells, specObservedCells]
    ext q
    rw [Finset.mem_filter, Finset.mem_filter]
    constructor
    · rintro ⟨hqB, hinb, hqsafe, hqmine⟩
      have hinb2 : st.inBounds q := hinb
      have hq2 : q ∉ insert cell st.safes := hqsafe
      rw [Finset.mem_insert] at hq2
      push_neg at hq2
      exact ⟨hqB, hq2.1, hinb2, hq2.2, hqmine⟩
    · rintro ⟨hqB, hne, hinb, hqsafe, hqmine⟩
      have hq2 : q ∉ insert cell st.safes := by
        rw [Finset.mem_insert]
        push_neg
        exact ⟨hne, hqsafe⟩
      exact ⟨hqB, hinb, hq2, hqmine⟩
  · intro hcell
    rw [newSentence_count, specAdjacentMines]
    have hsets : (box cell).toFinset.filter (fun q => q ∈ (st.preState cell).mines)
        = (box cell).toFinset.filter (fun q => q ≠ cell ∧ q ∈ st.mines) := by
      ext q
      rw [Finset.mem_filter, Finset.mem_filter]
      constructor
      · rintro ⟨hqB, hqmine⟩
        have hqmine2 : q ∈ st.mines := hqmine
        exact ⟨hqB, fun heq => hcell (heq ▸ hqmine2), hqmine2⟩
      · rintro ⟨hqB, _, hqmine⟩
        exact ⟨hqB, hqmine⟩
    rw [hsets]

/-- Witness for the amended C6 on a fresh AI. -/
theorem observe_sentence_characterization_witness :
    ((AI.start 2 2).newSentence ((0:Int),(0:Int)) 1).count
      = 1 - (specAdjacentMines (AI.start 2 2) ((0:Int),(0:Int)) : Int) ∧
    ((AI.start 2 2).newSentence ((0:Int),(0:Int)) 1).cells
      = specObservedCells (AI.start 2 2) ((0:Int),(0:Int)) :=
  ⟨(observe_sentence_characterization (AI.start 2 2) ((0:Int),(0:Int)) 1).2 (by decide),
   (observe_sentence_characterization (AI.start 2 2) ((0:Int),(0:Int)) 1).1⟩

end Mines
